import Mathlib

/-!
Verification of the hierarchy / instance-indexing core of the
`vscode-verilog-hdl-support` extension (`src/sidebar/InstancesView.ts`).

The embedding models:
  * the external `Symbol` fact base as the inductive `VSymbol` (name, type,
    optional typeRef, ordered children);
  * the lazy scope tree (`ScopeItem` / `ModuleItem` / `LogicItem` /
    `RootItem` / `InternalScopeItem`) as `ScopeNode` values tagged with
    `NodeKind`, with `expandNode` playing the virtual `getChildren`
    dispatch;
  * the workspace lookup `ext.index.findModuleSymbol` as an association
    list of definitions (first match wins);
  * `ProjectComponent.setInstance` (bracket stripping, dotted-path walk);
  * the eager reverse index `InstancesView.indexTop` together with the
    pre-order traversal and progress reporting.
-/

/-- A parser symbol: `name`, `type` (kind string such as `"module"`,
`"instance"`, `"block"`, `"port"` ...), optional `typeRef`, and ordered
`children`, mirroring the `Symbol` entities consumed by the source. -/
inductive VSymbol : Type where
  | mk (name : String) (type : String) (typeRef : Option String) (children : List VSymbol)

mutual

def VSymbol.decEq : (a b : VSymbol) → Decidable (a = b)
  | .mk n1 t1 r1 c1, .mk n2 t2 r2 c2 =>
    if hn : n1 = n2 then
      if ht : t1 = t2 then
        if hr : r1 = r2 then
          match VSymbol.decEqList c1 c2 with
          | isTrue hc => isTrue (by rw [hn, ht, hr, hc])
          | isFalse hc => isFalse (fun h => by injection h with e1 e2 e3 e4; exact hc e4)
        else isFalse (fun h => by injection h with e1 e2 e3 e4; exact hr e3)
      else isFalse (fun h => by injection h with e1 e2 e3 e4; exact ht e2)
    else isFalse (fun h => by injection h with e1 e2 e3 e4; exact hn e1)

def VSymbol.decEqList : (a b : List VSymbol) → Decidable (a = b)
  | [], [] => isTrue rfl
  | [], _ :: _ => isFalse (by simp)
  | _ :: _, [] => isFalse (by simp)
  | x :: xs, y :: ys =>
    match VSymbol.decEq x y, VSymbol.decEqList xs ys with
    | isTrue h1, isTrue h2 => isTrue (by rw [h1, h2])
    | isFalse h1, _ => isFalse (fun h => by injection h with e1 e2; exact h1 e1)
    | _, isFalse h2 => isFalse (fun h => by injection h with e1 e2; exact h2 e2)

end

instance : DecidableEq VSymbol := VSymbol.decEq

def VSymbol.name : VSymbol → String
  | .mk n _ _ _ => n

def VSymbol.type : VSymbol → String
  | .mk _ t _ _ => t

def VSymbol.typeRef : VSymbol → Option String
  | .mk _ _ r _ => r

def VSymbol.children : VSymbol → List VSymbol
  | .mk _ _ _ cs => cs

@[simp] theorem VSymbol.name_mk (n t : String) (r : Option String) (cs : List VSymbol) :
    (VSymbol.mk n t r cs).name = n := rfl

@[simp] theorem VSymbol.type_mk (n t : String) (r : Option String) (cs : List VSymbol) :
    (VSymbol.mk n t r cs).type = t := rfl

@[simp] theorem VSymbol.typeRef_mk (n t : String) (r : Option String) (cs : List VSymbol) :
    (VSymbol.mk n t r cs).typeRef = r := rfl

@[simp] theorem VSymbol.children_mk (n t : String) (r : Option String) (cs : List VSymbol) :
    (VSymbol.mk n t r cs).children = cs := rfl

/-- The runtime class of a scope-tree node: `RootItem`, `ModuleItem`,
`InternalScopeItem` or `LogicItem` in the source. -/
inductive NodeKind : Type where
  | root
  | module
  | internalBlock
  | leaf
  deriving DecidableEq

/-- A scope-tree node (`ScopeItem` in the source): the symbol it stands for
(`inst`), the symbol whose children it expands to (`definition`), and the
parent back-reference. -/
inductive ScopeNode : Type where
  | mk (kind : NodeKind) (inst : VSymbol) (definition : Option VSymbol) (parent : Option ScopeNode)

mutual

def ScopeNode.decEq : (a b : ScopeNode) → Decidable (a = b)
  | .mk k1 i1 d1 p1, .mk k2 i2 d2 p2 =>
    if hk : k1 = k2 then
      if hi : i1 = i2 then
        if hd : d1 = d2 then
          match ScopeNode.decEqOpt p1 p2 with
          | isTrue hp => isTrue (by rw [hk, hi, hd, hp])
          | isFalse hp => isFalse (fun h => by injection h with e1 e2 e3 e4; exact hp e4)
        else isFalse (fun h => by injection h with e1 e2 e3 e4; exact hd e3)
      else isFalse (fun h => by injection h with e1 e2 e3 e4; exact hi e2)
    else isFalse (fun h => by injection h with e1 e2 e3 e4; exact hk e1)

def ScopeNode.decEqOpt : (a b : Option ScopeNode) → Decidable (a = b)
  | none, none => isTrue rfl
  | none, some _ => isFalse (by simp)
  | some _, none => isFalse (by simp)
  | some x, some y =>
    match ScopeNode.decEq x y with
    | isTrue h => isTrue (by rw [h])
    | isFalse h => isFalse (fun hh => by injection hh with e; exact h e)

end

instance : DecidableEq ScopeNode := ScopeNode.decEq

def ScopeNode.kind : ScopeNode → NodeKind
  | .mk k _ _ _ => k

def ScopeNode.inst : ScopeNode → VSymbol
  | .mk _ i _ _ => i

def ScopeNode.definition : ScopeNode → Option VSymbol
  | .mk _ _ d _ => d

def ScopeNode.parent : ScopeNode → Option ScopeNode
  | .mk _ _ _ p => p

@[simp] theorem ScopeNode.kind_mk (k : NodeKind) (i : VSymbol) (d : Option VSymbol)
    (p : Option ScopeNode) : (ScopeNode.mk k i d p).kind = k := rfl

@[simp] theorem ScopeNode.inst_mk (k : NodeKind) (i : VSymbol) (d : Option VSymbol)
    (p : Option ScopeNode) : (ScopeNode.mk k i d p).inst = i := rfl

@[simp] theorem ScopeNode.definition_mk (k : NodeKind) (i : VSymbol) (d : Option VSymbol)
    (p : Option ScopeNode) : (ScopeNode.mk k i d p).definition = d := rfl

@[simp] theorem ScopeNode.parent_mk (k : NodeKind) (i : VSymbol) (d : Option VSymbol)
    (p : Option ScopeNode) : (ScopeNode.mk k i d p).parent = p := rfl

/-- `ScopeItem.getPath`: the parent's path, a dot, then the own instance
name; just the name at the root. -/
def ScopeNode.getPath : ScopeNode → String
  | .mk _ i _ none => i.name
  | .mk _ i _ (some p) => p.getPath ++ "." ++ i.name

/-- `EXCLUDED_SYMS = new Set(['enum', 'typedef', 'assert', 'function'])`. -/
def EXCLUDED_SYMS : List String := ["enum", "typedef", "assert", "function"]

/-- `ext.index.findModuleSymbol`: the workspace-wide definition lookup,
modelled as a first-match association list (spec 4.1: "resolver returns a
single definition chosen by the workspace index's own precedence (first
match)"). -/
def findModuleSymbol (defs : List (String × VSymbol)) (name : String) : Option VSymbol :=
  (defs.find? (fun p => p.1 == name)).map (fun p => p.2)

/-- `ModuleItem.getChildren` (the override used by `RootItem`,
`InternalScopeItem` and `ModuleItem`): filter out excluded kinds, then map
`block` children to `InternalScopeItem(this, child)` (definition = the block
itself), `instance` children to
`ModuleItem(this, child, await findModuleSymbol(child.typeRef ?? ''))`, and
every other child to `LogicItem(this, child)` (whose constructor passes the
child as its own definition; the local `def` the source computes from
`childSyms.find` for these children is never used and is omitted). -/
def childItem (defs : List (String × VSymbol)) (node : ScopeNode) (child : VSymbol) :
    ScopeNode :=
  if child.type == "block" then
    ScopeNode.mk NodeKind.internalBlock child (some child) (some node)
  else if child.type == "instance" then
    ScopeNode.mk NodeKind.module child
      (findModuleSymbol defs (child.typeRef.getD "")) (some node)
  else
    ScopeNode.mk NodeKind.leaf child (some child) (some node)

def ModuleItem.getChildren (defs : List (String × VSymbol)) (node : ScopeNode) :
    List ScopeNode :=
  match node.definition with
  | none => []
  | some d =>
    if d.children.isEmpty then []
    else
      (d.children.filter (fun child => !(EXCLUDED_SYMS.contains child.type))).map
        (childItem defs node)

/-- The virtual `getChildren` dispatch: `LogicItem` inherits the base
`ScopeItem.getChildren` (always `[]`); root, module and internal-scope items
use `ModuleItem.getChildren`. -/
def expandNode (defs : List (String × VSymbol)) (node : ScopeNode) : List ScopeNode :=
  match node.kind with
  | NodeKind.leaf => []
  | _ => ModuleItem.getChildren defs node

/-- `ScopeItem.hasChildren`: whether the definition has any non-excluded
child. -/
def ScopeItem.hasChildren (node : ScopeNode) : Bool :=
  match node.definition with
  | none => false
  | some d =>
    decide (0 < (d.children.filter (fun child => !(EXCLUDED_SYMS.contains child.type))).length)

/-- `RootItem` construction: `super(undefined, instance, instance)` — the
root node of a chosen top symbol. -/
def mkRootItem (top : VSymbol) : ScopeNode :=
  ScopeNode.mk NodeKind.root top (some top) none

/-! ### Basic facts about expansion -/

theorem expandNode_leaf (defs : List (String × VSymbol)) (node : ScopeNode)
    (h : node.kind = NodeKind.leaf) : expandNode defs node = [] := by
  simp only [expandNode, h]

theorem expandNode_ne_leaf (defs : List (String × VSymbol)) (node : ScopeNode)
    (h : node.kind ≠ NodeKind.leaf) :
    expandNode defs node = ModuleItem.getChildren defs node := by
  cases hk : node.kind
  case leaf => exact absurd hk h
  all_goals simp only [expandNode, hk]

theorem ModuleItem.getChildren_none (defs : List (String × VSymbol)) (node : ScopeNode)
    (h : node.definition = none) : ModuleItem.getChildren defs node = [] := by
  simp only [ModuleItem.getChildren, h]

theorem ModuleItem.getChildren_some (defs : List (String × VSymbol)) (node : ScopeNode)
    (d : VSymbol) (h : node.definition = some d) :
    ModuleItem.getChildren defs node =
      (d.children.filter (fun child => !(EXCLUDED_SYMS.contains child.type))).map
        (childItem defs node) := by
  simp only [ModuleItem.getChildren, h]
  by_cases he : d.children.isEmpty
  · rw [if_pos he, List.isEmpty_iff.mp he]
    rfl
  · rw [if_neg he]

@[simp] theorem childItem_inst (defs : List (String × VSymbol)) (node : ScopeNode)
    (child : VSymbol) : (childItem defs node child).inst = child := by
  unfold childItem
  split
  · rfl
  · split
    · rfl
    · rfl

@[simp] theorem childItem_parent (defs : List (String × VSymbol)) (node : ScopeNode)
    (child : VSymbol) : (childItem defs node child).parent = some node := by
  unfold childItem
  split
  · rfl
  · split
    · rfl
    · rfl

theorem childItem_block (defs : List (String × VSymbol)) (node : ScopeNode)
    (child : VSymbol) (h : child.type = "block") :
    childItem defs node child =
      ScopeNode.mk NodeKind.internalBlock child (some child) (some node) := by
  unfold childItem
  rw [if_pos (by rw [h]; rfl)]

theorem childItem_instanceKind (defs : List (String × VSymbol)) (node : ScopeNode)
    (child : VSymbol) (h : child.type = "instance") :
    childItem defs node child =
      ScopeNode.mk NodeKind.module child
        (findModuleSymbol defs (child.typeRef.getD "")) (some node) := by
  unfold childItem
  rw [if_neg (by rw [h]; decide), if_pos (by rw [h]; rfl)]

theorem childItem_other (defs : List (String × VSymbol)) (node : ScopeNode)
    (child : VSymbol) (h1 : child.type ≠ "block") (h2 : child.type ≠ "instance") :
    childItem defs node child =
      ScopeNode.mk NodeKind.leaf child (some child) (some node) := by
  unfold childItem
  rw [if_neg (by simp only [beq_iff_eq]; exact h1),
    if_neg (by simp only [beq_iff_eq]; exact h2)]

theorem childItem_mem (defs : List (String × VSymbol)) (node : ScopeNode)
    (d child : VSymbol) (hdef : node.definition = some d)
    (hkind : node.kind ≠ NodeKind.leaf) (hmem : child ∈ d.children)
    (hexcl : EXCLUDED_SYMS.contains child.type = false) :
    childItem defs node child ∈ expandNode defs node := by
  rw [expandNode_ne_leaf _ _ hkind, ModuleItem.getChildren_some _ _ _ hdef]
  exact List.mem_map_of_mem _ (List.mem_filter.mpr ⟨hmem, by rw [hexcl]; rfl⟩)

/-! ### Concrete symbols used as counterexample / witness inputs -/

def portChild : VSymbol := VSymbol.mk "p" "port" none []

def topC1 : VSymbol := VSymbol.mk "Top" "module" none [portChild]

def uChild : VSymbol := VSymbol.mk "u1" "instance" (some "Missing") []

def topC6 : VSymbol := VSymbol.mk "Top" "module" none [uChild]

def regGrand : VSymbol := VSymbol.mk "f" "register" none []

def portC10 : VSymbol := VSymbol.mk "p" "port" none [regGrand]

def topC10 : VSymbol := VSymbol.mk "Top" "module" none [portC10]

/-! ### Claims about `ModuleItem.getChildren` (spec 4.2, "expand") -/

/-- C1 counterexample: the claim says a child of any kind other than `block`
or `instance` becomes a Leaf node with `definitionSymbol = None`; on the
code, `LogicItem`'s constructor (`super(parent, instance, instance)`) stores
the child symbol itself as the node's definition, so the produced leaf for a
`port` child carries `some portChild`, not `none`. -/
theorem c1_counterexample :
    (expandNode [] (mkRootItem topC1)).map ScopeNode.definition = [some portChild] ∧
    some portChild ≠ (none : Option VSymbol) := by
  constructor
  · rfl
  · simp

/-- C1 (amended): for every scope node with a resolved definition (and of a
class that overrides `getChildren`, i.e. not a `LogicItem`), expansion maps
each non-excluded child of the definition by kind: a `block` child becomes an
`InternalScopeItem` whose definition is the block symbol itself; an
`instance` child becomes a `ModuleItem` node whose definition is
`findModuleSymbol(child.typeRef ?? '')`, the node appearing even when the
lookup fails; a child of any other kind becomes a `LogicItem` leaf whose
definition is the child symbol itself (not `None`). -/
theorem c1_expand_maps_children_by_kind (defs : List (String × VSymbol))
    (node : ScopeNode) (d child : VSymbol)
    (hdef : node.definition = some d) (hkind : node.kind ≠ NodeKind.leaf)
    (hmem : child ∈ d.children)
    (hexcl : EXCLUDED_SYMS.contains child.type = false) :
    ∃ n ∈ expandNode defs node,
      n.inst = child ∧ n.parent = some node ∧
      (child.type = "block" →
        n.kind = NodeKind.internalBlock ∧ n.definition = some child) ∧
      (child.type = "instance" →
        n.kind = NodeKind.module ∧
        n.definition = findModuleSymbol defs (child.typeRef.getD "")) ∧
      (child.type ≠ "block" → child.type ≠ "instance" →
        n.kind = NodeKind.leaf ∧ n.definition = some child) := by
  refine ⟨childItem defs node child,
    childItem_mem defs node d child hdef hkind hmem hexcl,
    childItem_inst defs node child, childItem_parent defs node child, ?_, ?_, ?_⟩
  · intro hb
    rw [childItem_block defs node child hb]
    exact ⟨rfl, rfl⟩
  · intro hi
    rw [childItem_instanceKind defs node child hi]
    exact ⟨rfl, rfl⟩
  · intro h1 h2
    rw [childItem_other defs node child h1 h2]
    exact ⟨rfl, rfl⟩

theorem c1_expand_maps_children_by_kind_witness :
    ((mkRootItem topC1).definition = some topC1 ∧
     (mkRootItem topC1).kind ≠ NodeKind.leaf ∧
     portChild ∈ topC1.children ∧
     EXCLUDED_SYMS.contains portChild.type = false) ∧
    ∃ n ∈ expandNode [] (mkRootItem topC1),
      n.inst = portChild ∧ n.parent = some (mkRootItem topC1) ∧
      (portChild.type = "block" →
        n.kind = NodeKind.internalBlock ∧ n.definition = some portChild) ∧
      (portChild.type = "instance" →
        n.kind = NodeKind.module ∧
        n.definition = findModuleSymbol [] (portChild.typeRef.getD "")) ∧
      (portChild.type ≠ "block" → portChild.type ≠ "instance" →
        n.kind = NodeKind.leaf ∧ n.definition = some portChild) :=
  ⟨⟨rfl, by decide, by decide, by decide⟩,
    c1_expand_maps_children_by_kind [] (mkRootItem topC1) topC1 portChild rfl
      (by decide) (by decide) (by decide)⟩

/-- C2: expansion of a resolved (non-leaf) node yields exactly one node per
non-excluded child of the definition, in declaration order (no sorting), and
no node coming from an excluded-kind child ever appears. -/
theorem c2_expand_exact_order (defs : List (String × VSymbol)) (node : ScopeNode)
    (d : VSymbol) (hdef : node.definition = some d)
    (hkind : node.kind ≠ NodeKind.leaf) :
    (expandNode defs node).map ScopeNode.inst
        = d.children.filter (fun child => !(EXCLUDED_SYMS.contains child.type)) ∧
    ∀ n ∈ expandNode defs node, EXCLUDED_SYMS.contains n.inst.type = false := by
  rw [expandNode_ne_leaf _ _ hkind, ModuleItem.getChildren_some _ _ _ hdef]
  constructor
  · rw [List.map_map]
    have h1 : ∀ c ∈ d.children.filter (fun child => !(EXCLUDED_SYMS.contains child.type)),
        (ScopeNode.inst ∘ childItem defs node) c = c := by
      intro c _
      simp [Function.comp]
    calc (d.children.filter (fun child => !(EXCLUDED_SYMS.contains child.type))).map
            (ScopeNode.inst ∘ childItem defs node)
        = (d.children.filter (fun child => !(EXCLUDED_SYMS.contains child.type))).map id :=
          List.map_congr_left h1
      _ = _ := List.map_id _
  · intro n hn
    obtain ⟨c, hc, rfl⟩ := List.mem_map.mp hn
    have h2 := (List.mem_filter.mp hc).2
    rw [childItem_inst]
    cases h3 : EXCLUDED_SYMS.contains c.type
    · rfl
    · rw [h3] at h2
      exact absurd h2 (by decide)

theorem c2_expand_exact_order_witness :
    ((mkRootItem topC1).definition = some topC1 ∧
     (mkRootItem topC1).kind ≠ NodeKind.leaf) ∧
    ((expandNode [] (mkRootItem topC1)).map ScopeNode.inst
        = topC1.children.filter (fun child => !(EXCLUDED_SYMS.contains child.type)) ∧
     ∀ n ∈ expandNode [] (mkRootItem topC1),
       EXCLUDED_SYMS.contains n.inst.type = false) :=
  ⟨⟨rfl, by decide⟩,
    c2_expand_exact_order [] (mkRootItem topC1) topC1 rfl (by decide)⟩

/-- C6: a node whose definition is `None` (in particular an unresolved
instance reference) expands to the empty sequence, and an instance child
whose `typeRef` fails to resolve still appears among its parent's children,
with definition `None` and empty expansion. -/
theorem c6_unresolved_not_error (defs : List (String × VSymbol)) (node : ScopeNode)
    (d child : VSymbol) (hdef : node.definition = some d)
    (hkind : node.kind ≠ NodeKind.leaf) (hmem : child ∈ d.children)
    (hinst : child.type = "instance")
    (hfail : findModuleSymbol defs (child.typeRef.getD "") = none) :
    (∀ m : ScopeNode, m.definition = none → expandNode defs m = []) ∧
    ∃ n ∈ expandNode defs node,
      n.inst = child ∧ n.definition = none ∧ expandNode defs n = [] := by
  have hempty : ∀ m : ScopeNode, m.definition = none → expandNode defs m = [] := by
    intro m hm
    by_cases hk : m.kind = NodeKind.leaf
    · exact expandNode_leaf defs m hk
    · rw [expandNode_ne_leaf defs m hk]
      exact ModuleItem.getChildren_none defs m hm
  refine ⟨hempty, childItem defs node child,
    childItem_mem defs node d child hdef hkind hmem (by rw [hinst]; decide),
    childItem_inst defs node child, ?_⟩
  have hdefn : (childItem defs node child).definition = none := by
    rw [childItem_instanceKind defs node child hinst]
    simpa using hfail
  exact ⟨hdefn, hempty _ hdefn⟩

theorem c6_unresolved_not_error_witness :
    ((mkRootItem topC6).definition = some topC6 ∧
     (mkRootItem topC6).kind ≠ NodeKind.leaf ∧
     uChild ∈ topC6.children ∧ uChild.type = "instance" ∧
     findModuleSymbol [] (uChild.typeRef.getD "") = none) ∧
    ((∀ m : ScopeNode, m.definition = none → expandNode [] m = []) ∧
     ∃ n ∈ expandNode [] (mkRootItem topC6),
       n.inst = uChild ∧ n.definition = none ∧ expandNode [] n = []) :=
  ⟨⟨rfl, by decide, by decide, rfl, rfl⟩,
    c6_unresolved_not_error [] (mkRootItem topC6) topC6 uChild rfl
      (by decide) (by decide) rfl rfl⟩

/-- C10: a non-block non-instance child yields a `LogicItem` leaf whose
definition is its own instance symbol; its expansion is unconditionally
empty, while `hasChildren` still reports whether the symbol has non-excluded
children — so `hasChildren = true` does not imply a non-empty expansion. -/
theorem c10_logic_item_leaf (defs : List (String × VSymbol)) (node : ScopeNode)
    (d child : VSymbol) (hdef : node.definition = some d)
    (hkind : node.kind ≠ NodeKind.leaf) (hmem : child ∈ d.children)
    (hexcl : EXCLUDED_SYMS.contains child.type = false)
    (hb : child.type ≠ "block") (hi : child.type ≠ "instance") :
    ∃ n ∈ expandNode defs node,
      n.kind = NodeKind.leaf ∧ n.inst = child ∧ n.definition = some child ∧
      expandNode defs n = [] ∧
      ScopeItem.hasChildren n =
        decide (0 < (child.children.filter
          (fun s => !(EXCLUDED_SYMS.contains s.type))).length) := by
  refine ⟨childItem defs node child,
    childItem_mem defs node d child hdef hkind hmem hexcl, ?_⟩
  rw [childItem_other defs node child hb hi]
  refine ⟨rfl, rfl, rfl, expandNode_leaf defs _ rfl, ?_⟩
  rfl

theorem c10_logic_item_leaf_witness :
    ((mkRootItem topC10).definition = some topC10 ∧
     (mkRootItem topC10).kind ≠ NodeKind.leaf ∧
     portC10 ∈ topC10.children ∧
     EXCLUDED_SYMS.contains portC10.type = false ∧
     portC10.type ≠ "block" ∧ portC10.type ≠ "instance") ∧
    (∃ n ∈ expandNode [] (mkRootItem topC10),
      n.kind = NodeKind.leaf ∧ n.inst = portC10 ∧ n.definition = some portC10 ∧
      expandNode [] n = [] ∧
      ScopeItem.hasChildren n =
        decide (0 < (portC10.children.filter
          (fun s => !(EXCLUDED_SYMS.contains s.type))).length)) ∧
    decide (0 < (portC10.children.filter
      (fun s => !(EXCLUDED_SYMS.contains s.type))).length) = true :=
  ⟨⟨rfl, by decide, by decide, by decide, by decide, by decide⟩,
    c10_logic_item_leaf [] (mkRootItem topC10) topC10 portC10 rfl
      (by decide) (by decide) (by decide) (by decide) (by decide),
    by decide⟩

/-! ### `ProjectComponent.setInstance`: bracket stripping and the dotted walk -/

/-- One attempted match of the regex `\[\d+\]` just after a literal `[`:
a nonempty digit run followed by `]`; returns the characters after the
match, `none` when the regex does not match here. -/
def bracketMatch (l : List Char) : Option (List Char) :=
  if (l.takeWhile Char.isDigit).isEmpty then none
  else if (l.dropWhile Char.isDigit).head? = some ']' then
    some (l.dropWhile Char.isDigit).tail
  else none

theorem length_dropWhile_le {α : Type} (p : α → Bool) (l : List α) :
    (l.dropWhile p).length ≤ l.length := by
  induction l with
  | nil => simp
  | cons a t ih =>
    rw [List.dropWhile_cons]
    split
    · simp
      omega
    · simp

theorem bracketMatch_length_le (l r : List Char) (h : bracketMatch l = some r) :
    r.length ≤ l.length := by
  unfold bracketMatch at h
  split at h
  · exact absurd h (by simp)
  · split at h
    · injection h with e
      subst e
      calc (l.dropWhile Char.isDigit).tail.length
          ≤ (l.dropWhile Char.isDigit).length := by
            rw [List.length_tail]
            omega
        _ ≤ l.length := length_dropWhile_le _ _
    · exact absurd h (by simp)

/-- `instance.replace(/\[\d+\]/g, '')`, scanning left to right: at a `[` try
to match `[<digits>]` and drop it, otherwise copy the character and move on.
The `fuel` argument only makes the recursion structural; `fuel = l.length`
always suffices because every step consumes at least one character
(`stripBrackets` below passes exactly that). -/
def stripBracketsAux : Nat → List Char → List Char
  | _, [] => []
  | 0, l => l
  | fuel + 1, c :: rest =>
    if c = '[' then
      match bracketMatch rest with
      | some rest2 => stripBracketsAux fuel rest2
      | none => c :: stripBracketsAux fuel rest
    else c :: stripBracketsAux fuel rest

def stripBrackets (s : String) : String :=
  String.mk (stripBracketsAux s.data.length s.data)

/-- `cleaned.split('.')` with JavaScript semantics: splitting the empty
string yields `[""]`, and consecutive dots yield empty segments. -/
def splitDot : List Char → List (List Char)
  | [] => [[]]
  | c :: rest =>
    if c = '.' then [] :: splitDot rest
    else
      match splitDot rest with
      | [] => [[c]]
      | s :: ss => (c :: s) :: ss

/-- The outcome of `ProjectComponent.setInstance`'s hierarchy walk: the node
revealed, or the `Could not find instance <part> in <parent>` diagnostic, or
the (dead) `current === undefined` early return after the loop. -/
inductive ResolveResult : Type where
  | found (node : ScopeNode)
  | notFound (part : String) (parentName : String)
  | noCurrent
  deriving DecidableEq

/-- `current?.instance.name ?? 'top level'` — the context named by the
not-found error message. -/
def parentDesc : Option ScopeNode → String
  | none => "top level"
  | some c => c.inst.name

/-- `ProjectComponent.getChildren`: with no element it returns the singleton
root for the current top; otherwise the element's own children. -/
def projectGetChildren (defs : List (String × VSymbol)) (top : VSymbol) :
    Option ScopeNode → List ScopeNode
  | none => [mkRootItem top]
  | some element => expandNode defs element

/-- The `for (let part of parts)` loop of `ProjectComponent.setInstance`:
look up each segment among the current children by exact name equality
(`children.find(...)`, first match); on a miss report
`Could not find instance <part> in <parent>` and stop; when the segments are
exhausted the current node (if any) is revealed. -/
def resolveLoop (defs : List (String × VSymbol)) (top : VSymbol) :
    List String → Option ScopeNode → ResolveResult
  | [], none => ResolveResult.noCurrent
  | [], some current => ResolveResult.found current
  | part :: rest, current =>
    match (projectGetChildren defs top current).find?
        (fun child => child.inst.name == part) with
    | none => ResolveResult.notFound part (parentDesc current)
    | some child => resolveLoop defs top rest (some child)

/-- `ProjectComponent.setInstance` for a string argument and a set top:
strip every `[<digits>]`, split on `.`, then walk the hierarchy. -/
def ProjectComponent.setInstance (defs : List (String × VSymbol)) (top : VSymbol)
    (instPath : String) : ResolveResult :=
  resolveLoop defs top
    ((splitDot (stripBrackets instPath).data).map (fun l => String.mk l)) none

theorem resolveLoop_nil_none (defs : List (String × VSymbol)) (top : VSymbol) :
    resolveLoop defs top [] none = ResolveResult.noCurrent := rfl

theorem resolveLoop_nil_some (defs : List (String × VSymbol)) (top : VSymbol)
    (current : ScopeNode) :
    resolveLoop defs top [] (some current) = ResolveResult.found current := rfl

theorem resolveLoop_cons_none (defs : List (String × VSymbol)) (top : VSymbol)
    (part : String) (rest : List String) (current : Option ScopeNode)
    (h : (projectGetChildren defs top current).find?
        (fun child => child.inst.name == part) = none) :
    resolveLoop defs top (part :: rest) current =
      ResolveResult.notFound part (parentDesc current) := by
  cases current <;> · unfold resolveLoop; rw [h]

theorem resolveLoop_cons_some (defs : List (String × VSymbol)) (top : VSymbol)
    (part : String) (rest : List String) (current : Option ScopeNode)
    (child : ScopeNode)
    (h : (projectGetChildren defs top current).find?
        (fun child => child.inst.name == part) = some child) :
    resolveLoop defs top (part :: rest) current =
      resolveLoop defs top rest (some child) := by
  conv_lhs => rw [resolveLoop]
  rw [h]

/-- The walk relation realised by `resolveLoop`: from `start`, consuming the
listed segments, each step moving to the first child whose instance name
equals the segment. -/
inductive ReachVia (defs : List (String × VSymbol)) (top : VSymbol) :
    Option ScopeNode → List String → Option ScopeNode → Prop where
  | refl (current : Option ScopeNode) : ReachVia defs top current [] current
  | step (current : Option ScopeNode) (part : String) (child : ScopeNode)
      (rest : List String) (stop : Option ScopeNode)
      (hfind : (projectGetChildren defs top current).find?
        (fun c => c.inst.name == part) = some child)
      (htail : ReachVia defs top (some child) rest stop) :
      ReachVia defs top current (part :: rest) stop

/-! ### Claims about `ProjectComponent.setInstance` (spec 4.4) -/

def aChildC7 : VSymbol := VSymbol.mk "a" "instance" none []

def topC7 : VSymbol := VSymbol.mk "Top" "module" none [aChildC7]

/-- C7 counterexample: the single-pass regex replace is not idempotent on
nested brackets. `"Top.a[1[2]3]"` is cleaned to `"Top.a[13]"` (only `[2]` is
a `[<digits>]` match), whose resolution fails at segment `a[13]`, while
resolving the already-stripped `"Top.a[13]"` cleans it further to `"Top.a"`
and succeeds — so resolving a path does not always agree with resolving the
same path with the `[<digits>]` suffixes removed. -/
theorem c7_counterexample :
    ProjectComponent.setInstance [] topC7 "Top.a[1[2]3]" ≠
      ProjectComponent.setInstance [] topC7 (stripBrackets "Top.a[1[2]3]") ∧
    ProjectComponent.setInstance [] topC7 "Top.a[1[2]3]" =
      ResolveResult.notFound "a[13]" "Top" ∧
    ProjectComponent.setInstance [] topC7 (stripBrackets "Top.a[1[2]3]") =
      ResolveResult.found (childItem [] (mkRootItem topC7) aChildC7) := by
  refine ⟨?_, by decide, by decide⟩
  decide

/-- C7 (amended): resolution first strips every `[<digits>]` from the path,
so whenever one stripping pass is idempotent on the path (every path without
nested brackets, e.g. `a.b[3].c`), resolving the path agrees with resolving
the same path with the suffixes removed; in particular `a.b[3].c` always
resolves identically to `a.b.c`. -/
theorem c7_strip_before_match (defs : List (String × VSymbol)) (top : VSymbol)
    (p : String) (h : stripBrackets (stripBrackets p) = stripBrackets p) :
    ProjectComponent.setInstance defs top p =
      ProjectComponent.setInstance defs top (stripBrackets p) ∧
    ProjectComponent.setInstance defs top "a.b[3].c" =
      ProjectComponent.setInstance defs top "a.b.c" := by
  constructor
  · unfold ProjectComponent.setInstance
    rw [h]
  · rfl

theorem c7_strip_before_match_witness :
    stripBrackets (stripBrackets "Top.a[3]") = stripBrackets "Top.a[3]" ∧
    (ProjectComponent.setInstance [] topC7 "Top.a[3]" =
       ProjectComponent.setInstance [] topC7 (stripBrackets "Top.a[3]") ∧
     ProjectComponent.setInstance [] topC7 "a.b[3].c" =
       ProjectComponent.setInstance [] topC7 "a.b.c") :=
  ⟨by decide, c7_strip_before_match [] topC7 "Top.a[3]" (by decide)⟩

/-- C8 counterexample: the claim (and the spec scenario) says the failure
diagnostic names the parent under which the segment was not found — for
`resolvePath(top, "nope.x")` the top's name. The code reports the fixed
string `'top level'` for a first-segment failure (`current` is still
`undefined` there), not the top's name `"Top"`. -/
theorem c8_counterexample :
    ProjectComponent.setInstance [] topC7 "nope.x" =
      ResolveResult.notFound "nope" "top level" ∧
    topC7.name = "Top" ∧
    ProjectComponent.setInstance [] topC7 "nope.x" ≠
      ResolveResult.notFound "nope" topC7.name := by
  refine ⟨by decide, rfl, ?_⟩
  decide

/-- C8 (amended): the walk consumes the segments in order, at each step
taking the first child whose instance name equals the segment; every
not-found outcome arises from an actual search context reached by such a
walk over a prefix of the segments: the reported segment had no match among
that context's children, and the reported name is the context node's
instance name — or the fixed string `'top level'` when the failure is at the
first segment, which is matched against the root node itself rather than
against the top's children. Resolution fails by returning the diagnostic
value, never by a thrown fault. -/
theorem c8_not_found_names_search_context (defs : List (String × VSymbol))
    (top : VSymbol) (segs : List String) (start : Option ScopeNode)
    (seg pname : String)
    (h : resolveLoop defs top segs start = ResolveResult.notFound seg pname) :
    ∃ pre post current,
      segs = pre ++ seg :: post ∧
      ReachVia defs top start pre current ∧
      (projectGetChildren defs top current).find?
        (fun child => child.inst.name == seg) = none ∧
      pname = parentDesc current := by
  induction segs generalizing start with
  | nil =>
    cases start <;> simp [resolveLoop] at h
  | cons part rest ih =>
    cases hf : (projectGetChildren defs top start).find?
        (fun child => child.inst.name == part) with
    | none =>
      rw [resolveLoop_cons_none defs top part rest start hf] at h
      injection h with e1 e2
      subst e1
      subst e2
      exact ⟨[], rest, start, rfl, ReachVia.refl start, hf, rfl⟩
    | some child =>
      rw [resolveLoop_cons_some defs top part rest start child hf] at h
      obtain ⟨pre, post, current, hsplit, hreach, hnone, hpn⟩ := ih (some child) h
      exact ⟨part :: pre, post, current, by rw [hsplit]; rfl,
        ReachVia.step start part child pre current hf hreach, hnone, hpn⟩

theorem c8_not_found_names_search_context_witness :
    resolveLoop [] topC7 ["nope", "x"] none =
      ResolveResult.notFound "nope" "top level" ∧
    ∃ pre post current,
      (["nope", "x"] : List String) = pre ++ "nope" :: post ∧
      ReachVia [] topC7 none pre current ∧
      (projectGetChildren [] topC7 current).find?
        (fun child => child.inst.name == "nope") = none ∧
      "top level" = parentDesc current :=
  ⟨by decide,
    c8_not_found_names_search_context [] topC7 ["nope", "x"] none "nope" "top level"
      (by decide)⟩

/-- C9 counterexample: resolving the empty path does not return the root.
JavaScript's `''.split('.')` yields `['']`, so the walk looks for a child
named `""` among `[RootItem(top)]`; for a top named `"Top"` that fails and
the call reports `Could not find instance  in top level`. -/
theorem c9_counterexample :
    ProjectComponent.setInstance [] topC7 "" =
      ResolveResult.notFound "" "top level" ∧
    ProjectComponent.setInstance [] topC7 "" ≠
      ResolveResult.found (mkRootItem topC7) := by
  refine ⟨by decide, ?_⟩
  decide

/-- C9 (amended): resolving the empty path string returns the root scope
node only when the top symbol's name is itself the empty string (the lone
empty segment then matches the root); for every top with a nonempty name it
fails with the not-found diagnostic for segment `""` under `'top level'`. -/
theorem c9_empty_path (defs : List (String × VSymbol)) (top : VSymbol) :
    ProjectComponent.setInstance defs top "" =
      if top.name == "" then ResolveResult.found (mkRootItem top)
      else ResolveResult.notFound "" "top level" := by
  show resolveLoop defs top [""] none = _
  cases hn : top.name == "" with
  | true =>
    rw [if_pos rfl]
    have hfind : (projectGetChildren defs top none).find?
        (fun child => child.inst.name == "") = some (mkRootItem top) :=
      List.find?_cons_of_pos _ (by simpa [mkRootItem] using hn)
    rw [resolveLoop_cons_some defs top "" [] none (mkRootItem top) hfind]
    exact resolveLoop_nil_some defs top (mkRootItem top)
  | false =>
    rw [if_neg (by simp)]
    have hfind : (projectGetChildren defs top none).find?
        (fun child => child.inst.name == "") = none := by
      rw [show projectGetChildren defs top none = [mkRootItem top] from rfl,
        List.find?_cons_of_neg _ (by simp [mkRootItem, hn]), List.find?_nil]
    exact resolveLoop_cons_none defs top "" [] none hfind

/-! ### The eager reverse index (`InstancesView.indexTop`, spec 4.3) -/

mutual

/-- A symbol together with all its descendants: the finite universe that
every definition symbol reached by the traversal lives in. -/
def subSyms : VSymbol → List VSymbol
  | VSymbol.mk n t r cs => VSymbol.mk n t r cs :: subSymsList cs

def subSymsList : List VSymbol → List VSymbol
  | [] => []
  | c :: cs => subSyms c ++ subSymsList cs

end

/-- Every symbol the traversal can ever resolve a node's definition to: the
top and the workspace definitions, with all their descendants. -/
def allSymsOf (defs : List (String × VSymbol)) (top : VSymbol) : List VSymbol :=
  subSymsList (top :: defs.map Prod.snd)

def fuelBound (defs : List (String × VSymbol)) (top : VSymbol) : Nat :=
  (allSymsOf defs top).length + 1

/-- Modelled from the spec: the pre-order hierarchy walker
(`top.preOrderTraversal` over `HierItem`/`InstanceItem` of
`ProjectComponent`) that `InstancesView.indexTop` drives is not among the
provided repository files. Spec 4.3 describes it: visit the node, then
recursively expand and visit each child depth-first, left-to-right (step 3),
with a cycle guard (step 6): a set of definition symbols on the current path
from the root is maintained, and a node whose resolved definition is already
an ancestor on that path is treated as a leaf — it still appears once, but
is not expanded. Expansion is the shared `expandNode` of the scope tree.
`fuel` only makes the recursion structural; `indexTopVisited` passes a
provably sufficient amount (`preorderNode_isSome`). Returns all visited
nodes in visit order, or `none` if the fuel ran out. -/
def preorderNode (defs : List (String × VSymbol)) :
    Nat → List VSymbol → ScopeNode → Option (List ScopeNode)
  | 0, _, _ => none
  | fuel + 1, anc, node =>
    match
      (match node.definition with
       | none => some []
       | some d =>
         if d ∈ anc then some ([] : List (List ScopeNode))
         else (expandNode defs node).mapM (preorderNode defs fuel (d :: anc))) with
    | none => none
    | some ls => some (node :: ls.flatten)

/-- The nodes one `indexTop` pass over `top` visits, root first. -/
def indexTopVisited (defs : List (String × VSymbol)) (top : VSymbol) :
    Option (List ScopeNode) :=
  preorderNode defs (fuelBound defs top) [] (mkRootItem top)

/-- JavaScript `Map.get` on an insertion-ordered association list. -/
def mapGet {α β : Type} [DecidableEq α] : List (α × β) → α → Option β
  | [], _ => none
  | (k, v) :: rest, k2 => if k2 = k then some v else mapGet rest k2

/-- JavaScript `Map.set`: replace the value in place when the key exists,
append a new entry otherwise. -/
def mapSet {α β : Type} [DecidableEq α] : List (α × β) → α → β → List (α × β)
  | [], k, v => [(k, v)]
  | (k0, v0) :: rest, k, v =>
    if k0 = k then (k0, v) :: rest else (k0, v0) :: mapSet rest k v

/-- `this.modules.get(item.definition).addInstance(item)`: the `DefaultMap`
creates the `ModuleItem` on first use; `addInstance` keys the entry by
`item.getPath()`. -/
def addInstance (idx : List (VSymbol × List (String × ScopeNode))) (d : VSymbol)
    (n : ScopeNode) : List (VSymbol × List (String × ScopeNode)) :=
  mapSet idx d (mapSet ((mapGet idx d).getD []) n.getPath n)

/-- The traversal callback of `indexTop`:
`if (item instanceof InstanceItem && item.definition)` — record the visited
node iff it is an instance (module-kind) node with a resolved definition. -/
def recordStep (idx : List (VSymbol × List (String × ScopeNode))) (n : ScopeNode) :
    List (VSymbol × List (String × ScopeNode)) :=
  match n.kind, n.definition with
  | NodeKind.module, some d => addInstance idx d n
  | _, _ => idx

/-- The reverse index after the pass: the callback folded over the visited
nodes in visit order, starting from the cleared (`modules.clear()`) map. -/
def buildIndex (visited : List ScopeNode) :
    List (VSymbol × List (String × ScopeNode)) :=
  visited.foldl recordStep []

/-- `this.modules.get(module)?.instances.get(path)`. -/
def indexLookup (idx : List (VSymbol × List (String × ScopeNode))) (d : VSymbol)
    (p : String) : Option ScopeNode :=
  match mapGet idx d with
  | none => none
  | some m => mapGet m p

/-- What a reverse-index entry for `(d, p)` stands for: a module-kind node
with resolved definition `d` whose hierarchical path is `p`. -/
def isRecordedAs (n : ScopeNode) (d : VSymbol) (p : String) : Prop :=
  n.kind = NodeKind.module ∧ n.definition = some d ∧ n.getPath = p

/-- The instance-symbol names from the root down to a node. -/
def namesFromRoot : ScopeNode → List String
  | .mk _ i _ none => [i.name]
  | .mk _ i _ (some p) => namesFromRoot p ++ [i.name]

/-- Dot-join of a name list, `["a","b","c"] ↦ "a.b.c"`. -/
def dotJoin : List String → String
  | [] => ""
  | [x] => x
  | x :: y :: rest => x ++ "." ++ dotJoin (y :: rest)

/-! ### Progress reporting inside `indexTop` (spec 4.3 step 5) -/

/-- One `pct += (95.0 - pct) * 0.001` / `Math.floor(pct)` / conditional
`progress.report({increment: fl - lastReport})` step per recorded instance.
The JavaScript number `pct` (which stays in `[0, 95)`) is modelled as the
exact nonnegative rational `p / q` held as an explicit numerator/denominator
pair: `pct + (95 - pct) * 0.001 = (999*p + 95*q) / (1000*q)`, and
`Math.floor` of a nonnegative fraction is truncating natural division. (The
doubles differ from the exact values by about 1e-16, far below every floor
threshold involved, so the reported integers agree.) Returns the
`increment` values reported inside the traversal, in order. -/
def progressLoop : Nat → ℕ → ℕ → ℕ → List ℕ
  | 0, _, _, _ => []
  | n + 1, p, q, lastReport =>
    let p2 := 999 * p + 95 * q
    let q2 := 1000 * q
    let fl := p2 / q2
    if lastReport < fl then
      (fl - lastReport) :: progressLoop n p2 q2 fl
    else progressLoop n p2 q2 lastReport

/-- All `increment` values one `indexTop` pass recording `n` instances
reports: `{increment: 0}` at the start (`pct = 0.0`, `lastReport = 0`), the
loop's reports, then `{increment: 100, message: 'Done'}` at the end. -/
def progressReports (n : Nat) : List ℕ :=
  0 :: (progressLoop n 0 1 0 ++ [100])

/-- Partial sums: the cumulative progress the sink has accumulated after
each report. -/
def cumulSums : ℕ → List ℕ → List ℕ
  | _, [] => []
  | acc, x :: xs => (acc + x) :: cumulSums (acc + x) xs

/-- `item instanceof InstanceItem && item.definition`: the visits on which
the callback records an instance and advances the progress estimate. -/
def countsForProgress (n : ScopeNode) : Bool :=
  n.kind == NodeKind.module && n.definition.isSome

/-- The `increment` sequence of one `indexTop` pass over `top`. -/
def indexTopReports (defs : List (String × VSymbol)) (top : VSymbol) :
    Option (List ℕ) :=
  (indexTopVisited defs top).map
    (fun visited => progressReports (visited.countP countsForProgress))

/-! ### The reverse index as a two-level insertion-ordered map -/

theorem mapGet_mapSet {α β : Type} [DecidableEq α] (m : List (α × β)) (k k2 : α)
    (v : β) : mapGet (mapSet m k v) k2 = if k2 = k then some v else mapGet m k2 := by
  induction m with
  | nil => simp [mapSet, mapGet]
  | cons kv rest ih =>
    obtain ⟨k0, v0⟩ := kv
    by_cases h0 : k0 = k
    · subst h0
      simp only [mapSet, if_pos rfl]
      by_cases h2 : k2 = k0 <;> simp [mapGet, h2]
    · simp only [mapSet, if_neg h0]
      by_cases h2 : k2 = k0
      · subst h2
        have hne : ¬(k2 = k) := fun hh => h0 hh
        simp [mapGet, hne]
      · simp [mapGet, h2, ih]

theorem indexLookup_addInstance (idx : List (VSymbol × List (String × ScopeNode)))
    (d0 d : VSymbol) (n0 : ScopeNode) (p : String) :
    indexLookup (addInstance idx d0 n0) d p =
      if d = d0 ∧ p = n0.getPath then some n0 else indexLookup idx d p := by
  unfold addInstance indexLookup
  rw [mapGet_mapSet]
  by_cases hd : d = d0
  · rw [if_pos hd]
    show mapGet (mapSet ((mapGet idx d0).getD []) n0.getPath n0) p = _
    rw [mapGet_mapSet]
    by_cases hp : p = n0.getPath
    · rw [if_pos hp, if_pos ⟨hd, hp⟩]
    · rw [if_neg hp, if_neg (fun hh => hp hh.2)]
      subst hd
      cases hbase : mapGet idx d with
      | none => simp [hbase, mapGet]
      | some m => simp [hbase]
  · rw [if_neg hd, if_neg (fun hh => hd hh.1)]

theorem foldl_recordStep_lookup (l : List ScopeNode)
    (idx : List (VSymbol × List (String × ScopeNode))) (d : VSymbol) (p : String) :
    (indexLookup (l.foldl recordStep idx) d p = indexLookup idx d p ∧
      ∀ n ∈ l, ¬ isRecordedAs n d p) ∨
    (∃ n, indexLookup (l.foldl recordStep idx) d p = some n ∧ n ∈ l ∧
      isRecordedAs n d p) := by
  induction l generalizing idx with
  | nil => exact Or.inl ⟨rfl, by simp⟩
  | cons n0 rest ih =>
    rw [List.foldl_cons]
    rcases ih (recordStep idx n0) with ⟨heq, hnone⟩ | ⟨n, h1, h2, h3⟩
    · by_cases hrec : isRecordedAs n0 d p
      · obtain ⟨hk, hd, hp⟩ := hrec
        refine Or.inr ⟨n0, ?_, List.mem_cons_self n0 rest, hk, hd, hp⟩
        rw [heq]
        have hstep : recordStep idx n0 = addInstance idx d n0 := by
          unfold recordStep
          rw [hk, hd]
        rw [hstep, indexLookup_addInstance, if_pos ⟨rfl, hp.symm⟩]
      · refine Or.inl ⟨?_, ?_⟩
        · rw [heq]
          cases hk : n0.kind with
          | module =>
            cases hdef : n0.definition with
            | none => unfold recordStep; rw [hk, hdef]
            | some d1 =>
              have hstep : recordStep idx n0 = addInstance idx d1 n0 := by
                unfold recordStep
                rw [hk, hdef]
              rw [hstep, indexLookup_addInstance]
              rw [if_neg ?_]
              intro ⟨he1, he2⟩
              exact hrec ⟨hk, by rw [hdef, he1], he2.symm⟩
          | root => unfold recordStep; rw [hk]
          | internalBlock => unfold recordStep; rw [hk]
          | leaf => unfold recordStep; rw [hk]
        · intro n hn
          rcases List.mem_cons.mp hn with rfl | hn2
          · exact hrec
          · exact hnone n hn2
    · exact Or.inr ⟨n, h1, List.mem_cons_of_mem n0 h2, h3⟩

theorem namesFromRoot_ne_nil (n : ScopeNode) : namesFromRoot n ≠ [] := by
  cases n with
  | mk k i d p => cases p <;> simp [namesFromRoot]

theorem dotJoin_append_singleton (l : List String) (hl : l ≠ []) (x : String) :
    dotJoin (l ++ [x]) = dotJoin l ++ "." ++ x := by
  induction l with
  | nil => exact absurd rfl hl
  | cons a t ih =>
    cases t with
    | nil => rfl
    | cons b t2 =>
      show a ++ "." ++ dotJoin ((b :: t2) ++ [x]) = a ++ "." ++ dotJoin (b :: t2) ++ "." ++ x
      rw [ih (by simp)]
      simp [String.append_assoc]

theorem getPath_eq_dotJoin : ∀ n : ScopeNode, ScopeNode.getPath n = dotJoin (namesFromRoot n)
  | ScopeNode.mk _ i _ none => by simp [ScopeNode.getPath, namesFromRoot, dotJoin]
  | ScopeNode.mk k i d (some par) => by
    have ih := getPath_eq_dotJoin par
    show par.getPath ++ "." ++ i.name = dotJoin (namesFromRoot par ++ [i.name])
    rw [dotJoin_append_singleton (namesFromRoot par) (namesFromRoot_ne_nil par) i.name, ih]

/-- C3: after a completed `indexTop` pass over `top` (traversal modelled
from spec 4.3, see `preorderNode`), the reverse index maps a definition
symbol and a hierarchical-path string to a node exactly when some visited
module-kind node has that resolved definition and that `getPath`; every
stored node is such a visited node (in particular nothing is recorded under
a definition that failed to resolve), and the hierarchical path is the
dot-join of the instance-symbol names from the root down to the node. -/
theorem c3_reverse_index_contents (defs : List (String × VSymbol)) (top : VSymbol)
    (visited : List ScopeNode)
    (hrun : indexTopVisited defs top = some visited) :
    (∀ d p n, indexLookup (buildIndex visited) d p = some n →
      n ∈ visited ∧ n.kind = NodeKind.module ∧ n.definition = some d ∧
        n.getPath = p) ∧
    (∀ d p, (∃ n ∈ visited, n.kind = NodeKind.module ∧ n.definition = some d ∧
        n.getPath = p) →
      ∃ n, indexLookup (buildIndex visited) d p = some n ∧ n ∈ visited ∧
        n.kind = NodeKind.module ∧ n.definition = some d ∧ n.getPath = p) ∧
    (∀ n : ScopeNode, ScopeNode.getPath n = dotJoin (namesFromRoot n)) := by
  refine ⟨?_, ?_, getPath_eq_dotJoin⟩
  · intro d p n hlook
    unfold buildIndex at hlook
    rcases foldl_recordStep_lookup visited [] d p with ⟨heq, _⟩ | ⟨n2, h1, h2, h3⟩
    · rw [heq] at hlook
      exact absurd hlook (by simp [indexLookup, mapGet])
    · rw [h1] at hlook
      injection hlook with he
      subst he
      obtain ⟨hk, hd, hp⟩ := h3
      exact ⟨h2, hk, hd, hp⟩
  · intro d p hex
    obtain ⟨n, hn, hk, hd, hp⟩ := hex
    rcases foldl_recordStep_lookup visited [] d p with ⟨_, hnone⟩ | ⟨n2, h1, h2, h3⟩
    · exact absurd (show isRecordedAs n d p from ⟨hk, hd, hp⟩) (hnone n hn)
    · obtain ⟨hk2, hd2, hp2⟩ := h3
      exact ⟨n2, h1, h2, hk2, hd2, hp2⟩

def LmodW : VSymbol := VSymbol.mk "Leaf" "module" none []

def u1W : VSymbol := VSymbol.mk "u1" "instance" (some "Leaf") []

def topW : VSymbol := VSymbol.mk "Top" "module" none [u1W]

def defsW : List (String × VSymbol) := [("Leaf", LmodW)]

def visitedW : List ScopeNode :=
  [mkRootItem topW, childItem defsW (mkRootItem topW) u1W]

theorem c3_reverse_index_contents_witness :
    indexTopVisited defsW topW = some visitedW ∧
    ((∀ d p n, indexLookup (buildIndex visitedW) d p = some n →
      n ∈ visitedW ∧ n.kind = NodeKind.module ∧ n.definition = some d ∧
        n.getPath = p) ∧
    (∀ d p, (∃ n ∈ visitedW, n.kind = NodeKind.module ∧ n.definition = some d ∧
        n.getPath = p) →
      ∃ n, indexLookup (buildIndex visitedW) d p = some n ∧ n ∈ visitedW ∧
        n.kind = NodeKind.module ∧ n.definition = some d ∧ n.getPath = p) ∧
    (∀ n : ScopeNode, ScopeNode.getPath n = dotJoin (namesFromRoot n))) :=
  ⟨by decide, c3_reverse_index_contents defsW topW visitedW (by decide)⟩

/-! ### Bounds on the progress estimate -/

theorem progressLoop_bounds : ∀ (n p q lastReport : ℕ), 0 < q → p < 95 * q →
    lastReport * q ≤ p →
    (∀ x ∈ progressLoop n p q lastReport, 0 < x) ∧
    (progressLoop n p q lastReport).sum + lastReport ≤ 94 := by
  intro n
  induction n with
  | zero =>
    intro p q lastReport hq hp hl
    refine ⟨by simp [progressLoop], ?_⟩
    have h1 : lastReport * q < 95 * q := lt_of_le_of_lt hl hp
    have h2 : lastReport < 95 := Nat.lt_of_mul_lt_mul_right h1
    simp only [progressLoop, List.sum_nil]
    omega
  | succ m ih =>
    intro p q lastReport hq hp hl
    simp only [progressLoop]
    have hq2pos : 0 < 1000 * q := by omega
    have hp2lt : 999 * p + 95 * q < 95 * (1000 * q) := by omega
    have hfl95 : (999 * p + 95 * q) / (1000 * q) < 95 :=
      (Nat.div_lt_iff_lt_mul hq2pos).mpr (by omega)
    have hflq2 : ((999 * p + 95 * q) / (1000 * q)) * (1000 * q) ≤ 999 * p + 95 * q :=
      Nat.div_mul_le_self _ _
    by_cases hcase : lastReport < (999 * p + 95 * q) / (1000 * q)
    · rw [if_pos hcase]
      obtain ⟨hpos, hsum⟩ := ih (999 * p + 95 * q) (1000 * q)
        ((999 * p + 95 * q) / (1000 * q)) hq2pos hp2lt hflq2
      constructor
      · intro x hx
        rcases List.mem_cons.mp hx with rfl | hx2
        · omega
        · exact hpos x hx2
      · simp only [List.sum_cons]
        omega
    · rw [if_neg hcase]
      apply ih (999 * p + 95 * q) (1000 * q) lastReport hq2pos hp2lt
      calc lastReport * (1000 * q) = 1000 * (lastReport * q) := by ring
        _ ≤ 1000 * p := Nat.mul_le_mul_left 1000 hl
        _ = 999 * p + p := by ring
        _ ≤ 999 * p + 95 * q := Nat.add_le_add_left (le_of_lt hp) _

theorem cumulSums_chain (l : List ℕ) : ∀ acc, List.Chain' (· ≤ ·) (cumulSums acc l) := by
  induction l with
  | nil =>
    intro acc
    simp [cumulSums]
  | cons x xs ih =>
    intro acc
    rw [show cumulSums acc (x :: xs) = (acc + x) :: cumulSums (acc + x) xs from rfl,
      List.chain'_cons']
    refine ⟨?_, ih (acc + x)⟩
    intro b hb
    cases xs with
    | nil => simp [cumulSums] at hb
    | cons y ys =>
      rw [show cumulSums (acc + x) (y :: ys) = (acc + x + y) :: cumulSums (acc + x + y) ys
        from rfl] at hb
      simp at hb
      omega

theorem cumulSums_le (l : List ℕ) : ∀ acc x, x ∈ cumulSums acc l → x ≤ acc + l.sum := by
  induction l with
  | nil =>
    intro acc x hx
    simp [cumulSums] at hx
  | cons y ys ih =>
    intro acc x hx
    rcases List.mem_cons.mp hx with rfl | hx2
    · simp only [List.sum_cons]
      omega
    · have := ih (acc + y) x hx2
      simp only [List.sum_cons]
      omega

theorem cumulSums_append (l1 l2 : List ℕ) : ∀ acc,
    cumulSums acc (l1 ++ l2) = cumulSums acc l1 ++ cumulSums (acc + l1.sum) l2 := by
  induction l1 with
  | nil => intro acc; simp [cumulSums]
  | cons x xs ih =>
    intro acc
    show (acc + x) :: cumulSums (acc + x) (xs ++ l2) = _
    rw [ih (acc + x)]
    simp only [List.sum_cons, cumulSums]
    rw [show acc + x + xs.sum = acc + (x + xs.sum) from by omega, List.cons_append]

def instP11 (i : Nat) : VSymbol :=
  VSymbol.mk ("u" ++ toString i) "instance" (some "L") []

def topP11 : VSymbol := VSymbol.mk "Top" "module" none ((List.range 11).map instP11)

def defsP11 : List (String × VSymbol) := [("L", VSymbol.mk "L" "module" none [])]

/-- C5 counterexample: a pass recording 11 instances reports increments
`[0, 1, 100]` — `pct` first crosses an integer at the 11th recorded node —
so the cumulative values at the sink are `[0, 1, 101]`: the final
`{increment: 100}` is issued regardless of what the loop already reported,
the total overshoots to 101, and no cumulative value ever equals 100. -/
theorem c5_counterexample :
    indexTopReports defsP11 topP11 = some [0, 1, 100] ∧
    cumulSums 0 [0, 1, 100] = [0, 1, 101] ∧
    (100 : ℕ) ∉ cumulSums 0 [0, 1, 100] :=
  ⟨by decide, by decide, by decide⟩

/-- C5 (amended): for every run of `indexTop`, the cumulative progress
values are monotonically non-decreasing and stay strictly below 100% before
the final report; the final `{increment: 100}` report brings the cumulative
total to `100 + s`, where `s ≤ 94` is the sum of everything reported before
it — so the total reaches at least 100% exactly once, at the final report,
but equals exactly 100% only when the loop reported nothing (fewer than 11
recorded instances); with more it overshoots (never beyond 194). -/
theorem c5_progress_profile (defs : List (String × VSymbol)) (top : VSymbol)
    (rep : List ℕ) (hrun : indexTopReports defs top = some rep) :
    List.Chain' (· ≤ ·) (cumulSums 0 rep) ∧
    (∀ x ∈ (cumulSums 0 rep).dropLast, x < 100) ∧
    ∃ t, (cumulSums 0 rep).getLast? = some t ∧ 100 ≤ t ∧ t ≤ 194 ∧
      t = 100 + rep.dropLast.sum := by
  obtain ⟨visited, hv, hrep⟩ : ∃ v, indexTopVisited defs top = some v ∧
      rep = progressReports (v.countP countsForProgress) := by
    unfold indexTopReports at hrun
    cases hv : indexTopVisited defs top with
    | none => rw [hv] at hrun; cases hrun
    | some v =>
      rw [hv] at hrun
      injection hrun with e
      exact ⟨v, rfl, e.symm⟩
  subst hrep
  obtain ⟨hpos, hsum⟩ := progressLoop_bounds (visited.countP countsForProgress) 0 1 0
    (by omega) (by omega) (by omega)
  have hrepr : progressReports (visited.countP countsForProgress) =
      (0 :: progressLoop (visited.countP countsForProgress) 0 1 0) ++ [100] := rfl
  have hsingle : cumulSums
      (0 + (0 :: progressLoop (visited.countP countsForProgress) 0 1 0).sum) [100] =
      [0 + (0 :: progressLoop (visited.countP countsForProgress) 0 1 0).sum + 100] := rfl
  refine ⟨cumulSums_chain _ 0, ?_, ?_⟩
  · rw [hrepr, cumulSums_append, hsingle, List.dropLast_concat]
    intro x hx
    have := cumulSums_le _ 0 x hx
    simp only [List.sum_cons] at this
    omega
  · rw [hrepr, cumulSums_append, hsingle, List.getLast?_concat, List.dropLast_concat]
    refine ⟨_, rfl, by simp only [List.sum_cons]; omega,
      by simp only [List.sum_cons]; omega, ?_⟩
    simp only [List.sum_cons]
    omega

theorem c5_progress_profile_witness :
    indexTopReports defsW topW = some [0, 100] ∧
    (List.Chain' (· ≤ ·) (cumulSums 0 [0, 100]) ∧
    (∀ x ∈ (cumulSums 0 ([0, 100] : List ℕ)).dropLast, x < 100) ∧
    ∃ t, (cumulSums 0 ([0, 100] : List ℕ)).getLast? = some t ∧ 100 ≤ t ∧ t ≤ 194 ∧
      t = 100 + ([0, 100] : List ℕ).dropLast.sum) :=
  ⟨by decide, c5_progress_profile defsW topW [0, 100] (by decide)⟩

/-! ### The symbol universe is closed under everything the traversal reaches -/

theorem self_mem_subSyms (s : VSymbol) : s ∈ subSyms s := by
  cases s with
  | mk n t r cs => exact List.mem_cons_self _ _

theorem subSyms_subset_subSymsList (c : VSymbol) (cs : List VSymbol) (h : c ∈ cs) :
    subSyms c ⊆ subSymsList cs := by
  induction cs with
  | nil => cases h
  | cons a t ih =>
    rcases List.mem_cons.mp h with rfl | h2
    · show subSyms c ⊆ subSyms c ++ subSymsList t
      exact List.subset_append_left _ _
    · exact (ih h2).trans (List.subset_append_right _ _)

theorem mem_subSymsList_iff (x : VSymbol) (cs : List VSymbol) :
    x ∈ subSymsList cs ↔ ∃ c ∈ cs, x ∈ subSyms c := by
  induction cs with
  | nil => simp [subSymsList]
  | cons a t ih =>
    show x ∈ subSyms a ++ subSymsList t ↔ _
    rw [List.mem_append, ih]
    constructor
    · rintro (h1 | ⟨c, hc, hx⟩)
      · exact ⟨a, List.mem_cons_self a t, h1⟩
      · exact ⟨c, List.mem_cons_of_mem a hc, hx⟩
    · rintro ⟨c, hc, hx⟩
      rcases List.mem_cons.mp hc with rfl | hc2
      · exact Or.inl hx
      · exact Or.inr ⟨c, hc2, hx⟩

theorem subSyms_closed_children : ∀ (s x : VSymbol), x ∈ subSyms s →
    ∀ c ∈ x.children, c ∈ subSyms s
  | VSymbol.mk n t r cs, x, hx, c, hc => by
    rw [show subSyms (VSymbol.mk n t r cs) = VSymbol.mk n t r cs :: subSymsList cs
      from rfl] at hx ⊢
    rcases List.mem_cons.mp hx with rfl | hx2
    · refine List.mem_cons_of_mem _ ?_
      have hcc : c ∈ cs := hc
      exact subSyms_subset_subSymsList c cs hcc (self_mem_subSyms c)
    · obtain ⟨c0, hc0, hxc0⟩ := (mem_subSymsList_iff x cs).mp hx2
      have hrec := subSyms_closed_children c0 x hxc0 c hc
      exact List.mem_cons_of_mem _ (subSyms_subset_subSymsList c0 cs hc0 hrec)
termination_by s => sizeOf s
decreasing_by
  have h1 := List.sizeOf_lt_of_mem hc0
  simp [VSymbol.mk.sizeOf_spec]
  omega

theorem top_mem_allSymsOf (defs : List (String × VSymbol)) (top : VSymbol) :
    top ∈ allSymsOf defs top := by
  show top ∈ subSymsList (top :: defs.map Prod.snd)
  exact subSyms_subset_subSymsList top _ (List.mem_cons_self _ _) (self_mem_subSyms top)

theorem findModuleSymbol_mem_allSymsOf (defs : List (String × VSymbol)) (top e : VSymbol)
    (r : String) (h : findModuleSymbol defs r = some e) : e ∈ allSymsOf defs top := by
  unfold findModuleSymbol at h
  cases hf : defs.find? (fun p => p.1 == r) with
  | none => rw [hf] at h; cases h
  | some pr =>
    rw [hf] at h
    injection h with he
    have hmem : pr ∈ defs := List.mem_of_find?_eq_some hf
    have hmem2 : e ∈ defs.map Prod.snd := by
      rw [← he]
      exact List.mem_map_of_mem Prod.snd hmem
    exact subSyms_subset_subSymsList e _ (List.mem_cons_of_mem _ hmem2) (self_mem_subSyms e)

theorem allSymsOf_closed_children (defs : List (String × VSymbol)) (top d c : VSymbol)
    (hd : d ∈ allSymsOf defs top) (hc : c ∈ d.children) : c ∈ allSymsOf defs top := by
  obtain ⟨c0, hc0, hdc0⟩ := (mem_subSymsList_iff d _).mp hd
  exact (mem_subSymsList_iff c _).mpr ⟨c0, hc0, subSyms_closed_children c0 d hdc0 c hc⟩

/-- Every definition a node's children can carry stays inside the symbol
universe. -/
def nodeDefOK (defs : List (String × VSymbol)) (top : VSymbol) (node : ScopeNode) : Prop :=
  ∀ d, node.definition = some d → d ∈ allSymsOf defs top

theorem expandNode_defOK (defs : List (String × VSymbol)) (top : VSymbol)
    (node : ScopeNode) (d : VSymbol) (hdef : node.definition = some d)
    (hd : d ∈ allSymsOf defs top) :
    ∀ nc ∈ expandNode defs node, nodeDefOK defs top nc := by
  intro nc hnc d2 hd2
  by_cases hk : node.kind = NodeKind.leaf
  · rw [expandNode_leaf defs node hk] at hnc
    cases hnc
  · rw [expandNode_ne_leaf defs node hk, ModuleItem.getChildren_some defs node d hdef] at hnc
    obtain ⟨c, hcf, rfl⟩ := List.mem_map.mp hnc
    have hcc : c ∈ d.children := (List.mem_filter.mp hcf).1
    by_cases hb : c.type = "block"
    · rw [childItem_block defs node c hb] at hd2
      rw [ScopeNode.definition_mk] at hd2
      injection hd2 with he
      subst he
      exact allSymsOf_closed_children defs top d c hd hcc
    · by_cases hi : c.type = "instance"
      · rw [childItem_instanceKind defs node c hi] at hd2
        rw [ScopeNode.definition_mk] at hd2
        exact findModuleSymbol_mem_allSymsOf defs top d2 _ hd2
      · rw [childItem_other defs node c hb hi] at hd2
        rw [ScopeNode.definition_mk] at hd2
        injection hd2 with he
        subst he
        exact allSymsOf_closed_children defs top d c hd hcc

/-! ### The guarded pre-order traversal terminates with the provided fuel -/

theorem preorderNode_zero (defs : List (String × VSymbol)) (anc : List VSymbol)
    (node : ScopeNode) : preorderNode defs 0 anc node = none := rfl

theorem preorderNode_succ_none (defs : List (String × VSymbol)) (fuel : Nat)
    (anc : List VSymbol) (node : ScopeNode) (h : node.definition = none) :
    preorderNode defs (fuel + 1) anc node = some [node] := by
  simp [preorderNode, h]

theorem preorderNode_succ_guard (defs : List (String × VSymbol)) (fuel : Nat)
    (anc : List VSymbol) (node : ScopeNode) (d : VSymbol)
    (h : node.definition = some d) (hg : d ∈ anc) :
    preorderNode defs (fuel + 1) anc node = some [node] := by
  simp [preorderNode, h, hg]

theorem preorderNode_succ_open (defs : List (String × VSymbol)) (fuel : Nat)
    (anc : List VSymbol) (node : ScopeNode) (d : VSymbol)
    (h : node.definition = some d) (hg : d ∉ anc) :
    preorderNode defs (fuel + 1) anc node =
      match (expandNode defs node).mapM (preorderNode defs fuel (d :: anc)) with
      | none => none
      | some ls => some (node :: ls.flatten) := by
  simp only [preorderNode, h]
  rw [if_neg hg]

theorem mapM_ne_none {α β : Type} (f : α → Option β) (l : List α)
    (h : ∀ a ∈ l, f a ≠ none) : l.mapM f ≠ none := by
  induction l with
  | nil =>
    rw [List.mapM_nil]
    simp
  | cons a t ih =>
    rw [List.mapM_cons]
    cases hfa : f a with
    | none => exact absurd hfa (h a (List.mem_cons_self a t))
    | some b =>
      cases hft : t.mapM f with
      | none => exact absurd hft (ih (fun x hx => h x (List.mem_cons_of_mem a hx)))
      | some bs => simp [hfa, hft]

theorem mapM_mem_some {α β : Type} (f : α → Option β) (l : List α) (bs : List β)
    (h : l.mapM f = some bs) : ∀ a ∈ l, ∃ b ∈ bs, f a = some b := by
  induction l generalizing bs with
  | nil =>
    intro a ha
    cases ha
  | cons x t ih =>
    intro a ha
    rw [List.mapM_cons] at h
    cases hfx : f x with
    | none => rw [hfx] at h; cases h
    | some b =>
      rw [hfx] at h
      cases hft : t.mapM f with
      | none => rw [hft] at h; cases h
      | some bs2 =>
        rw [hft] at h
        simp only [Option.pure_def, Option.bind_eq_bind, Option.some_bind] at h
        injection h with he
        subst he
        rcases List.mem_cons.mp ha with rfl | ha2
        · exact ⟨b, List.mem_cons_self b bs2, hfx⟩
        · obtain ⟨b2, hb2, hfb2⟩ := ih bs2 hft a ha2
          exact ⟨b2, List.mem_cons_of_mem b hb2, hfb2⟩

theorem preorderNode_isSome (defs : List (String × VSymbol)) (top : VSymbol) :
    ∀ fuel anc node, anc.Nodup → (∀ a ∈ anc, a ∈ allSymsOf defs top) →
    nodeDefOK defs top node →
    fuelBound defs top - anc.length ≤ fuel →
    preorderNode defs fuel anc node ≠ none := by
  intro fuel
  induction fuel with
  | zero =>
    intro anc node hnd hsub _ hle
    exfalso
    have hlen : anc.length ≤ (allSymsOf defs top).length :=
      (List.subperm_of_subset hnd hsub).length_le
    unfold fuelBound at hle
    omega
  | succ f ih =>
    intro anc node hnd hsub hok hle
    cases hdef : node.definition with
    | none =>
      rw [preorderNode_succ_none defs f anc node hdef]
      simp
    | some d =>
      by_cases hg : d ∈ anc
      · rw [preorderNode_succ_guard defs f anc node d hdef hg]
        simp
      · rw [preorderNode_succ_open defs f anc node d hdef hg]
        have hdall : d ∈ allSymsOf defs top := hok d hdef
        have hall : (expandNode defs node).mapM (preorderNode defs f (d :: anc)) ≠ none := by
          apply mapM_ne_none
          intro nc hnc
          apply ih (d :: anc) nc
          · exact List.nodup_cons.mpr ⟨hg, hnd⟩
          · intro a ha
            rcases List.mem_cons.mp ha with rfl | h2
            · exact hdall
            · exact hsub a h2
          · exact expandNode_defOK defs top node d hdef hdall nc hnc
          · have hlen : anc.length + 1 ≤ (allSymsOf defs top).length := by
              have h3 : (d :: anc).length ≤ (allSymsOf defs top).length := by
                refine (List.subperm_of_subset (List.nodup_cons.mpr ⟨hg, hnd⟩) ?_).length_le
                intro a ha
                rcases List.mem_cons.mp ha with rfl | h2
                · exact hdall
                · exact hsub a h2
              simpa using h3
            unfold fuelBound at hle ⊢
            simp only [List.length_cons]
            omega
        cases hm : (expandNode defs node).mapM (preorderNode defs f (d :: anc)) with
        | none => exact absurd hm hall
        | some ls => simp [hm]

theorem indexTopVisited_isSome (defs : List (String × VSymbol)) (top : VSymbol) :
    indexTopVisited defs top ≠ none := by
  apply preorderNode_isSome defs top (fuelBound defs top) [] (mkRootItem top)
  · exact List.nodup_nil
  · intro a ha
    cases ha
  · intro d hd
    rw [show (mkRootItem top).definition = some top from rfl] at hd
    injection hd with he
    subst he
    exact top_mem_allSymsOf defs top
  · simp

/-! ### Self-instantiation chains and what the guarded traversal records -/

/-- `d` declares an instance child whose `typeRef` resolves to `e`. -/
def InstStep (defs : List (String × VSymbol)) (d e : VSymbol) : Prop :=
  ∃ c ∈ d.children, c.type = "instance" ∧
    findModuleSymbol defs (c.typeRef.getD "") = some e

/-- An instantiation chain from `d` to `M` through the listed intermediate
definitions, each step resolving an instance child. -/
inductive ChainTo (defs : List (String × VSymbol)) : VSymbol → List VSymbol → VSymbol → Prop where
  | single (d e : VSymbol) : InstStep defs d e → ChainTo defs d [] e
  | cons (d e f2 : VSymbol) (l : List VSymbol) :
      InstStep defs d e → ChainTo defs e l f2 → ChainTo defs d (e :: l) f2

/-- `M` instantiates itself, directly or transitively. -/
def SelfInstantiates (defs : List (String × VSymbol)) (M : VSymbol) : Prop :=
  ∃ l, ChainTo defs M l M

theorem ChainTo.split_at (defs : List (String × VSymbol)) :
    ∀ (l1 : List VSymbol) (y : VSymbol) (l2 : List VSymbol) (d M : VSymbol),
    ChainTo defs d (l1 ++ y :: l2) M → ChainTo defs y l2 M := by
  intro l1
  induction l1 with
  | nil =>
    intro y l2 d M h
    cases h with
    | cons _ _ _ _ _ hc => exact hc
  | cons w t ih =>
    intro y l2 d M h
    cases h with
    | cons _ _ _ _ _ hc => exact ih y l2 w M hc

theorem chain_extract (defs : List (String × VSymbol)) (d : VSymbol) (l : List VSymbol)
    (M : VSymbol) (h : ChainTo defs d l M) :
    ∃ l2, ChainTo defs d l2 M ∧ l2.Nodup ∧ d ∉ l2 := by
  induction h with
  | single d e hs => exact ⟨[], ChainTo.single d e hs, List.nodup_nil, by simp⟩
  | cons d e f2 l hs hc ih =>
    obtain ⟨l2, hch, hnd, hnm⟩ := ih
    by_cases hde : d = e
    · subst hde
      exact ⟨l2, hch, hnd, hnm⟩
    · by_cases hdl : d ∈ l2
      · obtain ⟨s, t2, rfl⟩ := List.append_of_mem hdl
        have hsub : List.Sublist (d :: t2) (s ++ d :: t2) :=
          List.sublist_append_right s (d :: t2)
        have hnd2 : (d :: t2).Nodup := hnd.sublist hsub
        refine ⟨t2, ChainTo.split_at defs s d t2 e f2 hch, ?_, ?_⟩
        · exact (List.nodup_cons.mp hnd2).2
        · exact (List.nodup_cons.mp hnd2).1
      · refine ⟨e :: l2, ChainTo.cons d e f2 l2 hs hch,
          List.nodup_cons.mpr ⟨hnm, hnd⟩, ?_⟩
        intro hmem
        rcases List.mem_cons.mp hmem with rfl | h2
        · exact hde rfl
        · exact hdl h2

theorem preorderNode_self_mem (defs : List (String × VSymbol)) (fuel : Nat)
    (anc : List VSymbol) (node : ScopeNode) (vs : List ScopeNode)
    (h : preorderNode defs fuel anc node = some vs) : node ∈ vs := by
  cases fuel with
  | zero => rw [preorderNode_zero] at h; cases h
  | succ f =>
    cases hdef : node.definition with
    | none =>
      rw [preorderNode_succ_none defs f anc node hdef] at h
      injection h with he
      subst he
      exact List.mem_cons_self node []
    | some d =>
      by_cases hg : d ∈ anc
      · rw [preorderNode_succ_guard defs f anc node d hdef hg] at h
        injection h with he
        subst he
        exact List.mem_cons_self node []
      · rw [preorderNode_succ_open defs f anc node d hdef hg] at h
        cases hm : (expandNode defs node).mapM (preorderNode defs f (d :: anc)) with
        | none => rw [hm] at h; cases h
        | some ls =>
          rw [hm] at h
          injection h with he
          subst he
          exact List.mem_cons_self node ls.flatten

theorem preorderNode_descend (defs : List (String × VSymbol)) (fuel : Nat)
    (anc : List VSymbol) (node : ScopeNode) (d : VSymbol) (vs : List ScopeNode)
    (h : preorderNode defs fuel anc node = some vs)
    (hdef : node.definition = some d) (hg : d ∉ anc) :
    ∃ f2 ls, fuel = f2 + 1 ∧
      (expandNode defs node).mapM (preorderNode defs f2 (d :: anc)) = some ls ∧
      vs = node :: ls.flatten := by
  cases fuel with
  | zero => rw [preorderNode_zero] at h; cases h
  | succ f =>
    rw [preorderNode_succ_open defs f anc node d hdef hg] at h
    cases hm : (expandNode defs node).mapM (preorderNode defs f (d :: anc)) with
    | none => rw [hm] at h; cases h
    | some ls =>
      rw [hm] at h
      injection h with he
      exact ⟨f, ls, rfl, hm, he.symm⟩

theorem chain_visits (defs : List (String × VSymbol)) :
    ∀ (l : List VSymbol) (fuel : Nat) (anc : List VSymbol) (node : ScopeNode)
      (d M : VSymbol) (vs : List ScopeNode),
    preorderNode defs fuel anc node = some vs →
    node.definition = some d → d ∉ anc → node.kind ≠ NodeKind.leaf →
    ChainTo defs d l M → l.Nodup → (∀ e ∈ l, e ∉ d :: anc) →
    ∃ n ∈ vs, n.kind = NodeKind.module ∧ n.definition = some M := by
  intro l
  induction l with
  | nil =>
    intro fuel anc node d M vs h hdef hg hkind hchain _ _
    cases hchain with
    | single _ _ hs =>
      obtain ⟨c, hc, hci, hcr⟩ := hs
      obtain ⟨f2, ls, rfl, hm, rfl⟩ := preorderNode_descend defs fuel anc node d vs h hdef hg
      have hmem : childItem defs node c ∈ expandNode defs node :=
        childItem_mem defs node d c hdef hkind hc (by rw [hci]; decide)
      obtain ⟨vsc, hvsc, hrun⟩ := mapM_mem_some _ _ ls hm _ hmem
      have hself := preorderNode_self_mem defs f2 (d :: anc) _ vsc hrun
      refine ⟨childItem defs node c, ?_, ?_, ?_⟩
      · exact List.mem_cons_of_mem node (List.mem_flatten.mpr ⟨vsc, hvsc, hself⟩)
      · rw [childItem_instanceKind defs node c hci]
        rfl
      · rw [childItem_instanceKind defs node c hci]
        rw [ScopeNode.definition_mk]
        exact hcr
  | cons e l ih =>
    intro fuel anc node d M vs h hdef hg hkind hchain hnd hall
    cases hchain with
    | cons _ _ _ _ hs hc =>
      obtain ⟨c, hcm, hci, hcr⟩ := hs
      obtain ⟨f2, ls, rfl, hm, rfl⟩ := preorderNode_descend defs fuel anc node d vs h hdef hg
      have hmem : childItem defs node c ∈ expandNode defs node :=
        childItem_mem defs node d c hdef hkind hcm (by rw [hci]; decide)
      obtain ⟨vsc, hvsc, hrun⟩ := mapM_mem_some _ _ ls hm _ hmem
      have hchild : childItem defs node c =
          ScopeNode.mk NodeKind.module c (findModuleSymbol defs (c.typeRef.getD ""))
            (some node) := childItem_instanceKind defs node c hci
      have hdefc : (childItem defs node c).definition = some e := by
        rw [hchild, ScopeNode.definition_mk]
        exact hcr
      have hge : e ∉ d :: anc := hall e (List.mem_cons_self e l)
      have hkindc : (childItem defs node c).kind ≠ NodeKind.leaf := by
        rw [hchild, ScopeNode.kind_mk]
        decide
      have hxall : ∀ x ∈ l, x ∉ e :: d :: anc := by
        intro x hx hmem2
        rcases List.mem_cons.mp hmem2 with rfl | h2
        · exact (List.nodup_cons.mp hnd).1 hx
        · exact hall x (List.mem_cons_of_mem e hx) h2
      obtain ⟨n, hn, hnk, hnd2⟩ := ih f2 (d :: anc) (childItem defs node c) e M vsc
        hrun hdefc hge hkindc hc (List.nodup_cons.mp hnd).2 hxall
      exact ⟨n, List.mem_cons_of_mem node (List.mem_flatten.mpr ⟨vsc, hvsc, hn⟩),
        hnk, hnd2⟩

/-- C4: for every top module `M` that instantiates itself directly or
transitively, the (spec-modelled, cycle-guarded) `indexTop` pass terminates
— the guarded traversal completes within the provided fuel, which
`preorderNode_isSome` shows suffices for every input — and the resulting
reverse index still contains at least the outer instance of `M`: an entry
under definition `M` holding a module-kind node whose definition is `M`. -/
theorem c4_self_instantiation_guarded (defs : List (String × VSymbol)) (M : VSymbol)
    (h : SelfInstantiates defs M) :
    ∃ visited, indexTopVisited defs M = some visited ∧
      ∃ p n, indexLookup (buildIndex visited) M p = some n ∧
        n.kind = NodeKind.module ∧ n.definition = some M := by
  obtain ⟨l, hchain⟩ := h
  obtain ⟨l2, hch2, hnd2, hnm2⟩ := chain_extract defs M l M hchain
  obtain ⟨visited, hrun⟩ := Option.ne_none_iff_exists'.mp (indexTopVisited_isSome defs M)
  refine ⟨visited, hrun, ?_⟩
  have hvisit := chain_visits defs l2 (fuelBound defs M) [] (mkRootItem M) M M visited
    hrun rfl (by simp)
    (by rw [show (mkRootItem M).kind = NodeKind.root from rfl]; decide)
    hch2 hnd2 ?_
  · obtain ⟨n, hn, hkind, hdefM⟩ := hvisit
    rcases foldl_recordStep_lookup visited [] M n.getPath with ⟨_, hnone⟩ | ⟨n2, h1, h2, h3⟩
    · exact absurd (show isRecordedAs n M n.getPath from ⟨hkind, hdefM, rfl⟩) (hnone n hn)
    · obtain ⟨hk2, hd2, _⟩ := h3
      exact ⟨n.getPath, n2, h1, hk2, hd2⟩
  · intro e he hmem
    rcases List.mem_cons.mp hmem with rfl | h2
    · exact hnm2 he
    · cases h2

def uRec : VSymbol := VSymbol.mk "u" "instance" (some "M") []

def Mrec : VSymbol := VSymbol.mk "M" "module" none [uRec]

def defsRec : List (String × VSymbol) := [("M", Mrec)]

theorem c4_self_instantiation_guarded_witness :
    SelfInstantiates defsRec Mrec ∧
    ∃ visited, indexTopVisited defsRec Mrec = some visited ∧
      ∃ p n, indexLookup (buildIndex visited) Mrec p = some n ∧
        n.kind = NodeKind.module ∧ n.definition = some Mrec := by
  have hself : SelfInstantiates defsRec Mrec :=
    ⟨[], ChainTo.single Mrec Mrec ⟨uRec, by decide, rfl, by decide⟩⟩
  exact ⟨hself, c4_self_instantiation_guarded defsRec Mrec hself⟩
